import Mathlib

/-!
Shallow embedding of the stooq_instant quote-fetching pipeline.

JavaScript numbers are modelled as exact rationals (ℚ): every numeric value the
program manipulates arises from parsing short decimal numerals and multiplying
by powers of ten, where binary floating point agrees with exact arithmetic for
the magnitudes involved; float rounding/overflow is not modelled.  JavaScript
`null`/`undefined` are modelled as `Option.none`; thrown errors as `Except.error`.
Strings are processed as their character lists.
-/

namespace Stooq

/-! ### Character helpers (ASCII case folding, whitespace, word characters) -/

/-- ASCII uppercase test, phrased on code points to ease arithmetic reasoning. -/
def isUpperAscii (c : Char) : Bool := 65 ≤ c.toNat && c.toNat ≤ 90

/-- Case-insensitive character match, as performed by a JavaScript regex with the
`i` flag on ASCII input: equal, or an upper/lower pair 32 code points apart. -/
def ciEq (a b : Char) : Bool :=
  a == b || (isUpperAscii a && a.toNat + 32 == b.toNat)
    || (isUpperAscii b && b.toNat + 32 == a.toNat)

/-- ASCII lower-casing, modelling `String.prototype.toLowerCase` on ASCII input. -/
def lowerA (c : Char) : Char :=
  if isUpperAscii c then Char.ofNat (c.toNat + 32) else c

/-- Whitespace as matched by `\s` / `trim` for the ASCII range. -/
def isWs (c : Char) : Bool :=
  c == ' ' || c == Char.ofNat 9 || c == Char.ofNat 10 || c == Char.ofNat 11
    || c == Char.ofNat 12 || c == Char.ofNat 13

/-- Word characters, as matched by `\w` / used by the `\b` boundary (ASCII). -/
def isWordChar (c : Char) : Bool := c.isAlpha || c.isDigit || c == '_'

/-- Model of `String.prototype.trim` on a character list. -/
def jsTrim (l : List Char) : List Char :=
  ((l.dropWhile isWs).reverse.dropWhile isWs).reverse

/-- Model of `toLowerCase` on a string. -/
def jsToLower (s : String) : String := String.mk (s.data.map lowerA)

/-- One of the two JavaScript quote characters `"` or `'`. -/
def isQuoteChar (c : Char) : Bool := c == Char.ofNat 34 || c == Char.ofNat 39

/-! ### extractTextById

The source builds the regex ``\bid=(?:["']?ID["']?)[^>]*>([^<]*)<`` with flags
`ig` (the lookup key is regex-escaped, hence matched literally) and repeatedly
`exec`s it, keeping the last capture.  The embedding below implements exactly
that matching discipline: `matchCI` is the literal case-insensitive key match,
`splitAtChar` implements the deterministic `[^c]*c` idiom, `matchFirst` /
`matchSecond` implement the two optional-quote choice points with the regex
engine's greedy-then-backtrack order, and `scanAux` is the global scan that
advances past each match (tracking the previous character for `\b`). -/

/-- Match `p` case-insensitively as a literal prefix of `s`; return the rest. -/
def matchCI : List Char → List Char → Option (List Char)
  | [], s => some s
  | _ :: _, [] => none
  | p :: ps, c :: cs => if ciEq p c then matchCI ps cs else none

/-- Split `s` at the first occurrence of `c` (the `[^c]*c` regex idiom):
returns the characters before the first `c` and the characters after it. -/
def splitAtChar (c : Char) : List Char → Option (List Char × List Char)
  | [] => none
  | x :: xs =>
    if x = c then some ([], xs)
    else (splitAtChar c xs).map (fun p => (x :: p.1, p.2))

/-- The tail `[^>]*>([^<]*)<` of the pattern: skip to the closing `>`, capture
flat text up to the next `<`.  Returns the capture and the remaining input. -/
def matchRest (s : List Char) : Option (List Char × List Char) :=
  match splitAtChar '>' s with
  | none => none
  | some (_, r2) =>
    match splitAtChar '<' r2 with
    | none => none
    | some (cap, after) => some (cap, after)

/-- The second `["']?` of the pattern followed by `matchRest`, with the regex
engine's greedy choice: consume a quote if present, fall back to not consuming. -/
def matchSecond (s : List Char) : Option (List Char × List Char) :=
  match s with
  | c :: rest =>
    if isQuoteChar c then
      match matchRest rest with
      | some r => some r
      | none => matchRest s
    else matchRest s
  | [] => matchRest []

/-- The first `["']?` followed by the key, then `matchSecond`; greedy with
backtracking across the whole continuation. -/
def matchFirst (id : List Char) (s : List Char) : Option (List Char × List Char) :=
  let alt2 := fun (_ : Unit) =>
    match matchCI id s with
    | some r => matchSecond r
    | none => none
  match s with
  | c :: rest =>
    if isQuoteChar c then
      match matchCI id rest with
      | some r =>
        match matchSecond r with
        | some x => some x
        | none => alt2 ()
      | none => alt2 ()
    else alt2 ()
  | [] => alt2 ()

/-- Attempt the whole pattern at the current position: the `\b` boundary
(previous character must not be a word character), the literal `id=`
(case-insensitive), then `matchFirst`. -/
def matchAt (id : List Char) (prev : Option Char) (s : List Char) :
    Option (List Char × List Char) :=
  if (match prev with | some pc => isWordChar pc | none => false) then none
  else
    match s with
    | c1 :: c2 :: c3 :: rest =>
      if (c1 = 'i' ∨ c1 = 'I') ∧ (c2 = 'd' ∨ c2 = 'D') ∧ c3 = '=' then
        matchFirst id rest
      else none
    | _ => none

/-- Global scan (the `g` flag): try the pattern at every position left to right,
resuming after each match; keep the last capture.  Structural on a fuel that is
at least the input length (each step consumes at least one character). -/
def scanAux (id : List Char) : Nat → Option Char → List Char → Option (List Char) →
    Option (List Char)
  | _, _, [], acc => acc
  | fuel + 1, prev, c :: rest, acc =>
    match matchAt id prev (c :: rest) with
    | some (cap, after) => scanAux id fuel (some '<') after (some cap)
    | none => scanAux id fuel (some c) rest acc
  | 0, _, _ :: _, acc => acc

/-- `extractTextById(html, id)`: trimmed text of the last pattern match, or
null when the pattern never matches (`v === "" ? "" : v` is the identity). -/
def extractTextById (html id : String) : Option String :=
  (scanAux id.data html.data.length none html.data none).map
    (fun cap => String.mk (jsTrim cap))

/-! ### Number parsing

`jsNumber` models the ECMAScript `Number(string)` conversion on the string
forms reachable here (StringNumericLiteral: empty → 0, optional sign with a
decimal literal and optional exponent, `Infinity`, and the `0x`/`0o`/`0b`
radix forms), returning `none` for NaN and for the infinities — the two cases
`Number.isFinite` rejects.  Values are exact rationals. -/

/-- Numeric value of a list of decimal digit characters (fold, as positional). -/
def digitsValNat (l : List Char) : Nat := l.foldl (fun a c => 10 * a + (c.toNat - 48)) 0

/-- Decimal digit run as a rational integer value. -/
def digitsVal (l : List Char) : ℚ := (digitsValNat l : ℚ)

/-- Fraction-part value of a digit run: `digits / 10 ^ length`. -/
def fracVal (l : List Char) : ℚ := (digitsValNat l : ℚ) / 10 ^ l.length

/-- A non-empty all-digit run parsed as a natural number, else `none`. -/
def natDigits (l : List Char) : Option Nat :=
  if l ≠ [] ∧ l.all Char.isDigit then some (digitsValNat l) else none

/-- Signed exponent digits `[+-]?D+`, consumed in full. -/
def expDigits (l : List Char) : Option ℤ :=
  match l with
  | '+' :: r => (natDigits r).map (fun n => (n : ℤ))
  | '-' :: r => (natDigits r).map (fun n => -(n : ℤ))
  | _ => (natDigits l).map (fun n => (n : ℤ))

/-- Optional exponent part `[eE][+-]?D+` applied to a mantissa; anything else
trailing makes the whole literal invalid. -/
def withExp (m : ℚ) (r : List Char) : Option ℚ :=
  match r with
  | [] => some m
  | c :: rest =>
    if c = 'e' ∨ c = 'E' then (expDigits rest).map (fun e => m * (10 : ℚ) ^ e)
    else none

/-- Value of one digit character in the given radix (hex letters allowed). -/
def digitValIn (base : Nat) (c : Char) : Option Nat :=
  let v :=
    if 48 ≤ c.toNat ∧ c.toNat ≤ 57 then some (c.toNat - 48)
    else if 97 ≤ c.toNat ∧ c.toNat ≤ 102 then some (c.toNat - 87)
    else if 65 ≤ c.toNat ∧ c.toNat ≤ 70 then some (c.toNat - 55)
    else none
  match v with
  | some n => if n < base then some n else none
  | none => none

/-- Non-empty digit run in the given radix. -/
def radixVal (base : Nat) (l : List Char) : Option ℚ :=
  if l = [] then none
  else
    (l.foldl
      (fun acc c =>
        match acc, digitValIn base c with
        | some a, some d => some (base * a + d)
        | _, _ => none)
      (some (0 : Nat))).map (fun n => (n : ℚ))

/-- Unsigned decimal literal: `Infinity` (→ none, non-finite), `D+ [. D*] [exp]`
or `. D+ [exp]`; anything else is NaN (→ none). -/
def unsignedDec (l : List Char) : Option ℚ :=
  if l = ['I', 'n', 'f', 'i', 'n', 'i', 't', 'y'] then none
  else
    let ip := l.takeWhile Char.isDigit
    let r1 := l.dropWhile Char.isDigit
    if ip = [] then
      match l with
      | '.' :: r =>
        let fp := r.takeWhile Char.isDigit
        let r2 := r.dropWhile Char.isDigit
        if fp = [] then none else withExp (fracVal fp) r2
      | _ => none
    else
      match r1 with
      | [] => some (digitsVal ip)
      | '.' :: r2 =>
        let fp := r2.takeWhile Char.isDigit
        let r3 := r2.dropWhile Char.isDigit
        withExp (digitsVal ip + fracVal fp) r3
      | _ => withExp (digitsVal ip) r1

/-- `Number(string)` on a character list; `none` for NaN and the infinities. -/
def jsNumber (l : List Char) : Option ℚ :=
  let t := jsTrim l
  match t with
  | [] => some 0
  | c :: r =>
    if c = '+' then unsignedDec r
    else if c = '-' then (unsignedDec r).map Neg.neg
    else if c = '0' then
      match r with
      | c2 :: r2 =>
        if c2 = 'x' ∨ c2 = 'X' then radixVal 16 r2
        else if c2 = 'o' ∨ c2 = 'O' then radixVal 8 r2
        else if c2 = 'b' ∨ c2 = 'B' then radixVal 2 r2
        else unsignedDec t
      | [] => unsignedDec t
    else unsignedDec t

/-! ### parseNumberLoose / parsePctLoose -/

/-- The unit-suffix letters accepted by `/^([+-]?\d+(?:\.\d+)?)([kKmMgGbB])$/`. -/
def suffixChars : List Char := ['k', 'K', 'm', 'M', 'g', 'G', 'b', 'B']

/-- The `\d+(?:\.\d+)?$` tail of the suffix regex's numeric part. -/
def decNumTail (l1 : List Char) : Bool :=
  let ds := l1.takeWhile Char.isDigit
  let r1 := l1.dropWhile Char.isDigit
  if ds = [] then false
  else
    match r1 with
    | [] => true
    | '.' :: r2 => !r2.isEmpty && r2.all Char.isDigit
    | _ => false

/-- Whether a character list matches the anchored numeric part
`[+-]?\d+(?:\.\d+)?` of the suffix regex. -/
def decNumMatch (l : List Char) : Bool :=
  decNumTail
    (match l with
     | c :: r => if c = '+' ∨ c = '-' then r else l
     | [] => l)

/-- Split off a trailing unit suffix when the whole (trimmed) input matches
the suffix regex: returns the numeric part and the suffix character. -/
def kmSplit (t : List Char) : Option (List Char × Char) :=
  match t.getLast? with
  | none => none
  | some u =>
    if u ∈ suffixChars ∧ decNumMatch t.dropLast then some (t.dropLast, u)
    else none

/-- Multiplier for a unit suffix: `k` → 10³, `m` → 10⁶, `g`/`b` → 10⁹
(the source lower-cases the captured suffix before comparing). -/
def multOf (u : Char) : ℚ :=
  if lowerA u = 'k' then 1000 else if lowerA u = 'm' then 1000000 else 1000000000

/-- `parseNumberLoose(s)`: null on null input; trim; null when empty; the unit
suffix branch; otherwise strip commas and whitespace and parse as a plain
number, null when the result is not finite. -/
def parseNumberLoose (s : Option String) : Option ℚ :=
  match s with
  | none => none
  | some str =>
    let t := jsTrim str.data
    if t = [] then none
    else
      match kmSplit t with
      | some (numPart, u) =>
        match jsNumber numPart with
        | some n => some (n * multOf u)
        | none => none
      | none =>
        let normalized := t.filter (fun c => !((c == ',') || isWs c))
        jsNumber normalized

/-- `parsePctLoose(s)`: null on null input; trim; null when empty; strip a
wrapping parenthesis pair, then one trailing percent sign, then parse. -/
def parsePctLoose (s : Option String) : Option ℚ :=
  match s with
  | none => none
  | some str =>
    let t := jsTrim str.data
    if t = [] then none
    else
      let t1 := if t.head? = some '(' ∧ t.getLast? = some ')' then (t.drop 1).dropLast else t
      let t2 := if t1.getLast? = some '%' then t1.dropLast else t1
      parseNumberLoose (some (String.mk t2))

/-! ### Quote records and the assembler -/

/-- The `raw` sub-object of an assembled quote: original extracted text per
field (`last_id` records which candidate key resolved `last`; the playwright
build path does not set it). -/
structure RawQuote where
  last : Option String := none
  last_id : Option String := none
  date : Option String := none
  time : Option String := none
  change : Option String := none
  change_pct : Option String := none
  high : Option String := none
  low : Option String := none
  «open» : Option String := none
  prev : Option String := none
  volume : Option String := none
  turnover : Option String := none
deriving Repr, DecidableEq

/-- An assembled Quote Record. -/
structure Quote where
  symbol : String
  last : Option ℚ
  date : Option String
  time : Option String
  updated_at : Option String
  change : Option ℚ
  change_pct : Option ℚ
  high : Option ℚ
  low : Option ℚ
  «open» : Option ℚ
  prev : Option ℚ
  volume : Option ℚ
  turnover : Option ℚ
  raw : RawQuote
deriving Repr, DecidableEq

/-- JavaScript truthiness of an optional string: non-null and non-empty. -/
def truthyStr : Option String → Bool
  | some s => !(s == "")
  | none => false

/-- The `x || null` idiom: an empty (falsy) string collapses to null. -/
def jsOrNull (o : Option String) : Option String :=
  if truthyStr o then o else none

/-- The `d && t ? `${d} ${t}` : null` derivation of `updated_at`. -/
def updatedAtOf (d t : Option String) : Option String :=
  if truthyStr d && truthyStr t then some ((d.getD "") ++ " " ++ (t.getD "")) else none

/-- Candidate lookup key for the `last` field: `aq_<sym>_c<d>|3`. -/
def lastCandidate (sym : String) (d : Nat) : String :=
  "aq_" ++ sym ++ "_c" ++ toString d ++ "|3"

/-- The fixed priority order of `last` candidate digits. -/
def lastDigits : List Nat := [2, 0, 3, 1, 4, 5, 6, 7, 8, 9]

/-- First candidate key whose extraction is non-null, with its value;
later candidates are not consulted. -/
def firstCandidate (html : String) : List String → Option (String × String)
  | [] => none
  | id :: rest =>
    match extractTextById html id with
    | some v => some (id, v)
    | none => firstCandidate html rest

/-- `parseQuoteHtml(html, symbol)`: lower-case the symbol, resolve `last` over
the ordered candidate keys, extract the fixed field identifiers, normalize. -/
def parseQuoteHtml (html symbol : String) : Quote :=
  let sym := jsToLower symbol
  let hit := firstCandidate html (lastDigits.map (lastCandidate sym))
  let raw : RawQuote :=
    { last := hit.map Prod.snd
      last_id := hit.map Prod.fst
      date := extractTextById html ("aq_" ++ sym ++ "_d2")
      time := extractTextById html ("aq_" ++ sym ++ "_t1")
      change := extractTextById html ("aq_" ++ sym ++ "_m2")
      change_pct := extractTextById html ("aq_" ++ sym ++ "_m3")
      high := extractTextById html ("aq_" ++ sym ++ "_h")
      low := extractTextById html ("aq_" ++ sym ++ "_l")
      «open» := extractTextById html ("aq_" ++ sym ++ "_o")
      prev := extractTextById html ("aq_" ++ sym ++ "_p")
      volume := extractTextById html ("aq_" ++ sym ++ "_v2")
      turnover := extractTextById html ("aq_" ++ sym ++ "_r2") }
  { symbol := sym
    last := parseNumberLoose raw.last
    date := jsOrNull raw.date
    time := jsOrNull raw.time
    updated_at := updatedAtOf raw.date raw.time
    change := parseNumberLoose raw.change
    change_pct := parsePctLoose raw.change_pct
    high := parseNumberLoose raw.high
    low := parseNumberLoose raw.low
    «open» := parseNumberLoose raw.«open»
    prev := parseNumberLoose raw.prev
    volume := parseNumberLoose raw.volume
    turnover := parseNumberLoose raw.turnover
    raw := raw }

/-- `validateParsedQuote(q)`: every required field non-null; `volume` and
`turnover` are not consulted. -/
def validateParsedQuote (q : Quote) : Bool :=
  q.last.isSome && q.date.isSome && q.time.isSome && q.change.isSome
    && q.change_pct.isSome && q.high.isSome && q.low.isSome && q.«open».isSome
    && q.prev.isSome

/-- Field-to-text mapping produced by the rendered (playwright) fetch. -/
structure PwRaw where
  last : Option String := none
  date : Option String := none
  time : Option String := none
  change : Option String := none
  change_pct : Option String := none
  high : Option String := none
  low : Option String := none
  «open» : Option String := none
  prev : Option String := none
  volume : Option String := none
  turnover : Option String := none
deriving Repr, DecidableEq

/-- `buildQuoteFromPlaywrightRaw(symbol, raw)`: same normalization as the
HTTP-parse path, reading from the pre-extracted mapping (`raw || {}`). -/
def buildQuoteFromPlaywrightRaw (symbol : String) (raw : Option PwRaw) : Quote :=
  let sym := jsToLower symbol
  let r := raw.getD {}
  { symbol := sym
    last := parseNumberLoose r.last
    date := jsOrNull r.date
    time := jsOrNull r.time
    updated_at := updatedAtOf r.date r.time
    change := parseNumberLoose r.change
    change_pct := parsePctLoose r.change_pct
    high := parseNumberLoose r.high
    low := parseNumberLoose r.low
    «open» := parseNumberLoose r.«open»
    prev := parseNumberLoose r.prev
    volume := parseNumberLoose r.volume
    turnover := parseNumberLoose r.turnover
    raw :=
      { last := r.last
        last_id := none
        date := r.date
        time := r.time
        change := r.change
        change_pct := r.change_pct
        high := r.high
        low := r.low
        «open» := r.«open»
        prev := r.prev
        volume := r.volume
        turnover := r.turnover } }

/-! ### fetchOne (orchestrator, per symbol)

The two acquisition effects are the only suspension points; they are modelled
as pre-determined outcomes carried in a `FetchWorld`: the HTTP fetch either
yields the page markup or throws, the playwright fetch either yields the
field mapping or throws.  `fetchOne` returns the per-symbol outcome together
with a flag recording whether the playwright path was invoked. -/

structure FetchWorld where
  httpRes : Except String String
  pwRes : Except String PwRaw

/-- The playwright leg of `auto` mode (fetch, build, validate; the validation
failure message is tagged `(auto)`). -/
def autoFallback (symbol : String) (w : FetchWorld) : Except String Quote × Bool :=
  (match w.pwRes with
   | .error e => .error e
   | .ok raw =>
     let q := buildQuoteFromPlaywrightRaw symbol (some raw)
     if validateParsedQuote q then .ok q
     else .error "parsed quote missing required fields (auto)",
   true)

/-- `fetchOne({symbol, mode, timeoutMs})`: the three modes; any mode other
than `http`/`playwright` takes the `auto` path (try http, fall back). -/
def fetchOne (mode symbol : String) (w : FetchWorld) : Except String Quote × Bool :=
  if mode = "http" then
    (match w.httpRes with
     | .error e => .error e
     | .ok html =>
       let q := parseQuoteHtml html symbol
       if validateParsedQuote q then .ok q
       else .error "parsed quote missing required fields (http)",
     false)
  else if mode = "playwright" then
    (match w.pwRes with
     | .error e => .error e
     | .ok raw =>
       let q := buildQuoteFromPlaywrightRaw symbol (some raw)
       if validateParsedQuote q then .ok q
       else .error "parsed quote missing required fields (playwright)",
     true)
  else
    match w.httpRes with
    | .ok html =>
      let q := parseQuoteHtml html symbol
      if validateParsedQuote q then (.ok q, false) else autoFallback symbol w
    | .error _ => autoFallback symbol w

/-! ### fetchQuoteViaPlaywright (session lifecycle)

The session steps are modelled as pre-determined outcomes in a `PwWorld`; the
function replays the source's control flow — `launch` and `newPage` sit
OUTSIDE the try/finally, `goto`/`evaluate` inside it, and the finally block
runs `page.close().catch(() => {})` then `browser.close().catch(() => {})`,
whose outcomes are swallowed.  Alongside the result it returns the trace of
session events that actually ran. -/

inductive PwEvent where
  | launch
  | newPage
  | goto
  | evalPage
  | pageClose
  | browserClose
deriving Repr, DecidableEq, BEq

structure PwWorld where
  launchRes : Except String Unit
  newPageRes : Except String Unit
  gotoRes : Except String Unit
  evalRes : Except String PwRaw
  pageCloseRes : Except String Unit
  browserCloseRes : Except String Unit

/-- `fetchQuoteViaPlaywright`: result and event trace.  The teardown outcomes
`pageCloseRes`/`browserCloseRes` are consulted by the `.catch(() => {})`
handlers and discarded, so they cannot influence the result. -/
def fetchQuoteViaPlaywright (w : PwWorld) : Except String PwRaw × List PwEvent :=
  match w.launchRes with
  | .error e => (.error e, [.launch])
  | .ok _ =>
    match w.newPageRes with
    | .error e => (.error e, [.launch, .newPage])
    | .ok _ =>
      match w.gotoRes with
      | .error e => (.error e, [.launch, .newPage, .goto, .pageClose, .browserClose])
      | .ok _ =>
        (w.evalRes, [.launch, .newPage, .goto, .evalPage, .pageClose, .browserClose])

/-! ### mapLimit (bounded worker pool)

`mapLimit(items, limit, fn)` spawns `min(limit, items.length)` workers that
pull indices from a shared counter (`const idx = i++` is a single synchronous
step) and write `await fn(items[idx], idx)` into the output slot they claimed.
The model is a state machine over worker statuses; a schedule is a list of
worker choices, each advancing one worker by one atomic step (claim an index,
or complete the awaited call and write the slot). -/

inductive WStatus where
  | idle
  | running (idx : Nat)
  | done
deriving Repr, DecidableEq, BEq

structure PoolState (β : Type) where
  counter : Nat
  out : List (Option β)
  workers : List WStatus

/-- Initial pool state for `items.length` slots and the given limit. -/
def initState (β : Type) (len limit : Nat) : PoolState β :=
  { counter := 0, out := List.replicate len none, workers := List.replicate (min limit len) .idle }

/-- One scheduler step: advance worker `w`. -/
def poolStep {α β : Type} (items : List α) (fn : α → Nat → β) (st : PoolState β)
    (w : Nat) : PoolState β :=
  match st.workers[w]? with
  | none => st
  | some .done => st
  | some .idle =>
    let idx := st.counter
    if idx < items.length then
      { st with counter := idx + 1, workers := st.workers.set w (.running idx) }
    else
      { st with counter := idx + 1, workers := st.workers.set w .done }
  | some (.running idx) =>
    match items[idx]? with
    | some a => { st with out := st.out.set idx (some (fn a idx)), workers := st.workers.set w .idle }
    | none => { st with workers := st.workers.set w .idle }

/-- Run `mapLimit` under a given schedule of worker choices. -/
def mapLimitRun {α β : Type} (items : List α) (fn : α → Nat → β) (limit : Nat)
    (sched : List Nat) : PoolState β :=
  sched.foldl (poolStep items fn) (initState β items.length limit)

/-- All workers have returned (the `Promise.all` barrier has resolved). -/
def allDone {β : Type} (st : PoolState β) : Bool :=
  st.workers.all (fun s => decide (s = .done))

/-! ### Spec-side notions used to state the claims -/

/-- Case-insensitive "starts with" over character lists (key against an
identifier), matching the regex engine's per-character `i`-flag test. -/
def ciStartsWith : List Char → List Char → Bool
  | [], _ => true
  | _ :: _, [] => false
  | p :: ps, c :: cs => ciEq p c && ciStartsWith ps cs

/-- A flat markup element: an identifier attribute value and flat text. -/
structure Elem where
  id : String
  text : String
deriving Repr, DecidableEq

/-- Characters of one rendered element with an unquoted identifier attribute:
`<span id=ID>TEXT</span>`. -/
def elemChars (e : Elem) : List Char :=
  "<span id=".data ++ e.id.data ++ '>' :: (e.text.data ++ "</span>".data)

/-- Render one element with an unquoted identifier attribute. -/
def renderElem (e : Elem) : String := String.mk (elemChars e)

/-- Concatenated rendering of a list of flat elements, as characters. -/
def renderChars (es : List Elem) : List Char :=
  es.foldr (fun e acc => elemChars e ++ acc) []

/-- Concatenated rendering of a list of flat elements. -/
def render (es : List Elem) : String := String.mk (renderChars es)

/-- Side conditions making an element's rendering unambiguous for the textual
scan: the identifier holds no `i`/`I` (so no spurious `id=` can arise), no
quote characters and no `>`; the text holds no `i`/`I` and no `<`. -/
def GoodElem (e : Elem) : Prop :=
  (∀ c ∈ e.id.data, c ≠ 'i' ∧ c ≠ 'I' ∧ isQuoteChar c = false ∧ c ≠ '>')
    ∧ (∀ c ∈ e.text.data, c ≠ 'i' ∧ c ≠ 'I' ∧ c ≠ '<')

instance (e : Elem) : Decidable (GoodElem e) := by
  unfold GoodElem; infer_instance

/-- Positional value of a list of decimal digits. -/
def digitsToNat (ds : List Nat) : Nat := ds.foldl (fun a d => 10 * a + d) 0

/-- Render an optional sign, an integer digit run and an optional decimal
part as characters: the numeric portion of the unit-suffix input family. -/
def mkNumChars (sgn : Option Char) (ds fs : List Nat) : List Char :=
  (match sgn with | some c => [c] | none => [])
    ++ ds.map Nat.digitChar
    ++ (if fs = [] then [] else '.' :: fs.map Nat.digitChar)

/-- Sign factor of the rendered sign character. -/
def sgnFactor (sgn : Option Char) : ℚ := if sgn = some '-' then -1 else 1

/-- Value denoted by integer digits `ds` and fraction digits `fs`. -/
def famVal (ds fs : List Nat) : ℚ :=
  (digitsToNat ds : ℚ) + (digitsToNat fs : ℚ) / 10 ^ fs.length

/-- Invariant of the worker-pool state machine: slots are sized like the
input; every written slot holds the function value for its own index; every
claimed in-range index is written or owned by a running worker; running
workers own in-range claimed indices; a finished worker implies the counter
passed the end. -/
def PoolInv {α β : Type} (items : List α) (fn : α → Nat → β) (st : PoolState β) : Prop :=
  st.out.length = items.length
    ∧ (∀ (j : Nat) (b : β), st.out[j]? = some (some b) → ∃ a, items[j]? = some a ∧ b = fn a j)
    ∧ (∀ j : Nat, j < st.counter → j < items.length →
        (∃ b, st.out[j]? = some (some b)) ∨ ∃ u : Nat, st.workers[u]? = some (WStatus.running j))
    ∧ (∀ (j : Nat) (u : Nat), st.workers[u]? = some (WStatus.running j) → j < items.length ∧ j < st.counter)
    ∧ ((∃ u : Nat, st.workers[u]? = some WStatus.done) → items.length ≤ st.counter)

/-- A session world where creating the page fails after a successful launch. -/
def pwLeakWorld : PwWorld :=
  { launchRes := .ok ()
    newPageRes := .error "newPage failed"
    gotoRes := .ok ()
    evalRes := .ok {}
    pageCloseRes := .ok ()
    browserCloseRes := .ok () }

/-! ## Theorems -/

/-- The `updated_at` derivation, phrased against the already-collapsed
(`|| null`) date/time fields. -/
theorem updatedAtOf_match (d t : Option String) :
    updatedAtOf d t =
      match jsOrNull d, jsOrNull t with
      | some ds, some ts => some (ds ++ " " ++ ts)
      | _, _ => none := by
  cases d with
  | none => simp [updatedAtOf, jsOrNull, truthyStr]
  | some ds =>
    cases t with
    | none => simp [updatedAtOf, jsOrNull, truthyStr]
    | some ts =>
      by_cases hd : ds = "" <;> by_cases ht : ts = "" <;>
        simp [updatedAtOf, jsOrNull, truthyStr, hd, ht]

/-- C2: `validateParsedQuote(q)` returns true iff every one of the nine fields
`last`, `date`, `time`, `change`, `change_pct`, `high`, `low`, `open`, `prev`
is non-null; the values of `volume` and `turnover` never affect the result. -/
theorem validateParsedQuote_required_iff :
    (∀ q : Quote, validateParsedQuote q = true ↔
      (q.last ≠ none ∧ q.date ≠ none ∧ q.time ≠ none ∧ q.change ≠ none
        ∧ q.change_pct ≠ none ∧ q.high ≠ none ∧ q.low ≠ none ∧ q.«open» ≠ none
        ∧ q.prev ≠ none))
    ∧ (∀ (q : Quote) (v t : Option ℚ),
        validateParsedQuote { q with volume := v, turnover := t } = validateParsedQuote q) := by
  constructor
  · intro q
    simp [validateParsedQuote, Bool.and_eq_true, Option.isSome_iff_ne_none, and_assoc]
  · intro q v t
    rfl

/-- C6: in every assembled Quote Record — the HTTP-parse path and the
rendered-fetch path — `updated_at` is non-null iff both `date` and `time` are
non-null, and then equals the date, one space, and the time. -/
theorem quote_updated_at_concat :
    (∀ html sym : String,
      (parseQuoteHtml html sym).updated_at =
        match (parseQuoteHtml html sym).date, (parseQuoteHtml html sym).time with
        | some d, some t => some (d ++ " " ++ t)
        | _, _ => none)
    ∧ (∀ (sym : String) (r : Option PwRaw),
      (buildQuoteFromPlaywrightRaw sym r).updated_at =
        match (buildQuoteFromPlaywrightRaw sym r).date, (buildQuoteFromPlaywrightRaw sym r).time with
        | some d, some t => some (d ++ " " ++ t)
        | _, _ => none) := by
  constructor
  · intro html sym
    show updatedAtOf _ _ = _
    exact updatedAtOf_match _ _
  · intro sym r
    show updatedAtOf _ _ = _
    exact updatedAtOf_match _ _

/-- C10: when the extractor returns an empty string for the date or time
element (present but empty), the assembled record's `date`/`time` field is
null, `updated_at` is null, and the record fails validation. -/
theorem parseQuoteHtml_empty_date_time (html sym : String) :
    (extractTextById html ("aq_" ++ jsToLower sym ++ "_d2") = some "" →
      (parseQuoteHtml html sym).date = none
        ∧ (parseQuoteHtml html sym).updated_at = none
        ∧ validateParsedQuote (parseQuoteHtml html sym) = false)
    ∧ (extractTextById html ("aq_" ++ jsToLower sym ++ "_t1") = some "" →
      (parseQuoteHtml html sym).time = none
        ∧ (parseQuoteHtml html sym).updated_at = none
        ∧ validateParsedQuote (parseQuoteHtml html sym) = false) := by
  constructor <;> intro h <;>
    simp [parseQuoteHtml, validateParsedQuote, jsOrNull, truthyStr, updatedAtOf, h]

/-- Witness for C10 at a concrete markup text with an empty date element. -/
theorem parseQuoteHtml_empty_date_time_witness :
    (parseQuoteHtml "<p id=aq_gc.f_d2>  </p>" "gc.f").date = none
      ∧ (parseQuoteHtml "<p id=aq_gc.f_d2>  </p>" "gc.f").updated_at = none
      ∧ validateParsedQuote (parseQuoteHtml "<p id=aq_gc.f_d2>  </p>" "gc.f") = false :=
  (parseQuoteHtml_empty_date_time "<p id=aq_gc.f_d2>  </p>" "gc.f").1 (by decide)

/-- C5: `last` is resolved by trying `aq_<symbol>_c<d>|3` for `d` in the fixed
order 2,0,3,1,4,5,6,7,8,9, first non-null extraction winning; markup keyed
only by `aq_gc.f_c3|3` still resolves `last` from that element. -/
theorem parseQuoteHtml_last_priority :
    (∀ html sym v, extractTextById html (lastCandidate (jsToLower sym) 2) = some v →
      (parseQuoteHtml html sym).raw.last = some v
        ∧ (parseQuoteHtml html sym).raw.last_id = some (lastCandidate (jsToLower sym) 2))
    ∧ (∀ html sym v,
        extractTextById html (lastCandidate (jsToLower sym) 2) = none →
        extractTextById html (lastCandidate (jsToLower sym) 0) = none →
        extractTextById html (lastCandidate (jsToLower sym) 3) = some v →
        (parseQuoteHtml html sym).raw.last = some v
          ∧ (parseQuoteHtml html sym).raw.last_id = some (lastCandidate (jsToLower sym) 3))
    ∧ ((parseQuoteHtml "<span id=aq_gc.f_c3|3>123.45</span>" "gc.f").raw.last = some "123.45"
        ∧ (parseQuoteHtml "<span id=aq_gc.f_c3|3>123.45</span>" "gc.f").last = some (2469 / 20)
        ∧ (parseQuoteHtml "<span id=aq_gc.f_c3|3>123.45</span>" "gc.f").raw.last_id
            = some (lastCandidate "gc.f" 3)) := by
  refine ⟨?_, ?_, ?_, ?_, ?_⟩
  · intro html sym v h2
    simp [parseQuoteHtml, lastDigits, firstCandidate, h2]
  · intro html sym v h2 h0 h3
    simp [parseQuoteHtml, lastDigits, firstCandidate, h2, h0, h3]
  · with_unfolding_all rfl
  · with_unfolding_all rfl
  · with_unfolding_all rfl

/-- Witness for C5: the fallback-order hypotheses discharged on the concrete
`gc.f` markup that carries only the `c3|3` element. -/
theorem parseQuoteHtml_last_priority_witness :
    (parseQuoteHtml "<span id=aq_gc.f_c3|3>123.45</span>" "gc.f").raw.last = some "123.45"
      ∧ (parseQuoteHtml "<span id=aq_gc.f_c3|3>123.45</span>" "gc.f").raw.last_id
          = some (lastCandidate (jsToLower "gc.f") 3) :=
  parseQuoteHtml_last_priority.2.1 "<span id=aq_gc.f_c3|3>123.45</span>" "gc.f" "123.45"
    (by decide) (by decide) (by decide)

/-- C7: in `auto` mode, a validated HTTP-path record is returned and the
rendered path is never invoked; when the HTTP path throws or its record fails
validation, the rendered path runs and the reported outcome is that path's
result (its fetch error, its record, or its `(auto)` validation error). -/
theorem fetchOne_auto_fallback (sym : String) (w : FetchWorld) :
    (∀ html, w.httpRes = .ok html → validateParsedQuote (parseQuoteHtml html sym) = true →
      fetchOne "auto" sym w = (.ok (parseQuoteHtml html sym), false))
    ∧ (∀ e, w.httpRes = .error e → fetchOne "auto" sym w = autoFallback sym w)
    ∧ (∀ html, w.httpRes = .ok html → validateParsedQuote (parseQuoteHtml html sym) = false →
      fetchOne "auto" sym w = autoFallback sym w)
    ∧ (autoFallback sym w).2 = true
    ∧ (autoFallback sym w).1 =
        (match w.pwRes with
         | .error e => .error e
         | .ok raw =>
           if validateParsedQuote (buildQuoteFromPlaywrightRaw sym (some raw))
           then .ok (buildQuoteFromPlaywrightRaw sym (some raw))
           else .error "parsed quote missing required fields (auto)") := by
  refine ⟨?_, ?_, ?_, rfl, ?_⟩
  · intro html h hv
    simp [fetchOne, h, hv]
  · intro e h
    simp [fetchOne, h]
  · intro html h hv
    simp [fetchOne, h, hv]
  · cases hw : w.pwRes <;> simp [autoFallback, hw]

/-- Witness for C7: an HTTP failure falls through to the playwright path, and
the playwright error is what the symbol reports. -/
theorem fetchOne_auto_fallback_witness :
    fetchOne "auto" "gc.f" { httpRes := .error "http 500", pwRes := .error "nav timeout" } =
      (.error "nav timeout", true) := by
  have h := (fetchOne_auto_fallback "gc.f"
    { httpRes := .error "http 500", pwRes := .error "nav timeout" }).2.1 "http 500" rfl
  rw [h]
  rfl

/-- Counterexample for C8 as stated: when `browser.newPage()` itself fails
(an error raised during the call), the function exits without closing the
browser — `launch` and `newPage` run outside the try/finally, so neither
close runs on that exit path. -/
theorem fetchQuoteViaPlaywright_newPage_leak :
    (fetchQuoteViaPlaywright pwLeakWorld).1 = .error "newPage failed"
      ∧ (fetchQuoteViaPlaywright pwLeakWorld).2.contains PwEvent.browserClose = false
      ∧ (fetchQuoteViaPlaywright pwLeakWorld).2.contains PwEvent.pageClose = false :=
  ⟨rfl, rfl, rfl⟩

/-- C8 (amended): on every exit path reached once the page exists — success,
navigation failure, or evaluation failure — both the page and the browser are
closed, and teardown outcomes are swallowed: the result is determined by
navigation/evaluation alone and never replaced by a close failure. -/
theorem fetchQuoteViaPlaywright_teardown (w : PwWorld)
    (hl : w.launchRes = .ok ()) (hn : w.newPageRes = .ok ()) :
    (fetchQuoteViaPlaywright w).1 =
      (match w.gotoRes with | .error e => .error e | .ok _ => w.evalRes)
    ∧ PwEvent.pageClose ∈ (fetchQuoteViaPlaywright w).2
    ∧ PwEvent.browserClose ∈ (fetchQuoteViaPlaywright w).2 := by
  rcases w with ⟨lr, nr, gr, er, pc, bc⟩
  simp only at hl hn
  subst hl
  subst hn
  cases gr <;> simp [fetchQuoteViaPlaywright]

/-- Witness for C8 at a concrete world: navigation fails and page close also
fails, yet the navigation error is reported and both closes run. -/
theorem fetchQuoteViaPlaywright_teardown_witness :
    (fetchQuoteViaPlaywright
        { launchRes := .ok (), newPageRes := .ok (), gotoRes := .error "nav timeout"
          evalRes := .ok {}, pageCloseRes := .error "close failed", browserCloseRes := .ok () }).1
      = .error "nav timeout"
    ∧ PwEvent.pageClose ∈ (fetchQuoteViaPlaywright
        { launchRes := .ok (), newPageRes := .ok (), gotoRes := .error "nav timeout"
          evalRes := .ok {}, pageCloseRes := .error "close failed", browserCloseRes := .ok () }).2
    ∧ PwEvent.browserClose ∈ (fetchQuoteViaPlaywright
        { launchRes := .ok (), newPageRes := .ok (), gotoRes := .error "nav timeout"
          evalRes := .ok {}, pageCloseRes := .error "close failed", browserCloseRes := .ok () }).2 := by
  have h := fetchQuoteViaPlaywright_teardown
    { launchRes := .ok (), newPageRes := .ok (), gotoRes := .error "nav timeout"
      evalRes := .ok {}, pageCloseRes := .error "close failed", browserCloseRes := .ok () }
    rfl rfl
  exact ⟨h.1.trans rfl, h.2.1, h.2.2⟩

/-! ### The worker pool (C9) -/

/-- The pool invariant holds initially. -/
theorem poolInv_init {α β : Type} (items : List α) (fn : α → Nat → β) (limit : Nat) :
    PoolInv items fn (initState β items.length limit) := by
  refine ⟨by simp [initState], ?_, ?_, ?_, ?_⟩
  · intro j b h
    rw [initState] at h
    simp only [List.getElem?_replicate] at h
    split at h <;> simp_all
  · intro j hj
    simp [initState] at hj
  · intro j u h
    rw [initState] at h
    simp only [List.getElem?_replicate] at h
    split at h <;> simp_all
  · intro ⟨u, h⟩
    rw [initState] at h
    simp only [List.getElem?_replicate] at h
    split at h <;> simp_all

/-- One scheduler step preserves the pool invariant. -/
theorem poolInv_step {α β : Type} (items : List α) (fn : α → Nat → β)
    (st : PoolState β) (w : Nat) (h : PoolInv items fn st) :
    PoolInv items fn (poolStep items fn st w) := by
  obtain ⟨h1, h2, h3, h4, h5⟩ := h
  cases hw : st.workers[w]? with
  | none =>
    simp only [poolStep, hw]
    exact ⟨h1, h2, h3, h4, h5⟩
  | some s =>
    have hwlt : w < st.workers.length := by
      by_contra hge
      rw [List.getElem?_eq_none (by omega)] at hw
      exact Option.noConfusion hw
    cases s with
    | done =>
      simp only [poolStep, hw]
      exact ⟨h1, h2, h3, h4, h5⟩
    | idle =>
      simp only [poolStep, hw]
      by_cases hc : st.counter < items.length
      · rw [if_pos hc]
        unfold PoolInv
        dsimp only
        refine ⟨h1, h2, ?_, ?_, ?_⟩
        · intro j hj hjlen
          rcases Nat.lt_or_ge j st.counter with hjc | hjc
          · rcases h3 j hjc hjlen with hout | ⟨u, hu⟩
            · exact Or.inl hout
            · refine Or.inr ⟨u, ?_⟩
              have hne : w ≠ u := by
                intro he
                subst he
                rw [hw] at hu
                exact WStatus.noConfusion (Option.some.inj hu)
              rw [List.getElem?_set_ne hne]
              exact hu
          · have : j = st.counter := by omega
            subst this
            exact Or.inr ⟨w, by rw [List.getElem?_set_self hwlt]⟩
        · intro j u hu
          by_cases he : w = u
          · subst he
            rw [List.getElem?_set_self hwlt] at hu
            have := Option.some.inj hu
            have hj : st.counter = j := by
              cases this
              rfl
            subst hj
            exact ⟨hc, by omega⟩
          · rw [List.getElem?_set_ne he] at hu
            have := h4 j u hu
            exact ⟨this.1, by omega⟩
        · intro ⟨u, hu⟩
          by_cases he : w = u
          · subst he
            rw [List.getElem?_set_self hwlt] at hu
            exact WStatus.noConfusion (Option.some.inj hu)
          · rw [List.getElem?_set_ne he] at hu
            have := h5 ⟨u, hu⟩
            omega
      · rw [if_neg hc]
        unfold PoolInv
        dsimp only
        refine ⟨h1, h2, ?_, ?_, ?_⟩
        · intro j hj hjlen
          have hjc : j < st.counter := by omega
          rcases h3 j hjc hjlen with hout | ⟨u, hu⟩
          · exact Or.inl hout
          · refine Or.inr ⟨u, ?_⟩
            have hne : w ≠ u := by
              intro he
              subst he
              rw [hw] at hu
              exact WStatus.noConfusion (Option.some.inj hu)
            rw [List.getElem?_set_ne hne]
            exact hu
        · intro j u hu
          by_cases he : w = u
          · subst he
            rw [List.getElem?_set_self hwlt] at hu
            exact WStatus.noConfusion (Option.some.inj hu)
          · rw [List.getElem?_set_ne he] at hu
            have := h4 j u hu
            exact ⟨this.1, by omega⟩
        · intro _
          omega
    | running idx =>
      have hidx := h4 idx w hw
      cases hi : items[idx]? with
      | none =>
        rw [List.getElem?_eq_none_iff] at hi
        omega
      | some a =>
        simp only [poolStep, hw, hi]
        unfold PoolInv
        dsimp only
        refine ⟨by simpa using h1, ?_, ?_, ?_, ?_⟩
        · intro j b hb
          by_cases he : idx = j
          · subst he
            rw [List.getElem?_set_self (by omega)] at hb
            have hb' := Option.some.inj (Option.some.inj hb)
            exact ⟨a, hi, hb'.symm⟩
          · rw [List.getElem?_set_ne he] at hb
            exact h2 j b hb
        · intro j hj hjlen
          by_cases he : idx = j
          · subst he
            exact Or.inl ⟨fn a idx, by rw [List.getElem?_set_self (by omega)]⟩
          · rcases h3 j hj hjlen with ⟨b, hb⟩ | ⟨u, hu⟩
            · exact Or.inl ⟨b, by rw [List.getElem?_set_ne he]; exact hb⟩
            · by_cases hwu : w = u
              · subst hwu
                rw [hw] at hu
                have := Option.some.inj hu
                cases this
                exact absurd rfl he
              · exact Or.inr ⟨u, by rw [List.getElem?_set_ne hwu]; exact hu⟩
        · intro j u hu
          by_cases he : w = u
          · subst he
            rw [List.getElem?_set_self hwlt] at hu
            exact WStatus.noConfusion (Option.some.inj hu)
          · rw [List.getElem?_set_ne he] at hu
            exact h4 j u hu
        · intro ⟨u, hu⟩
          by_cases he : w = u
          · subst he
            rw [List.getElem?_set_self hwlt] at hu
            exact WStatus.noConfusion (Option.some.inj hu)
          · rw [List.getElem?_set_ne he] at hu
            exact h5 ⟨u, hu⟩

/-- The pool invariant is preserved by folding any schedule. -/
theorem poolInv_foldl {α β : Type} (items : List α) (fn : α → Nat → β)
    (sched : List Nat) (st : PoolState β) (h : PoolInv items fn st) :
    PoolInv items fn (sched.foldl (poolStep items fn) st) := by
  induction sched generalizing st with
  | nil => exact h
  | cons w ws ih =>
    rw [List.foldl_cons]
    exact ih _ (poolInv_step items fn st w h)

/-- The pool invariant holds after any schedule. -/
theorem poolInv_run {α β : Type} (items : List α) (fn : α → Nat → β) (limit : Nat)
    (sched : List Nat) : PoolInv items fn (mapLimitRun items fn limit sched) :=
  poolInv_foldl items fn sched _ (poolInv_init items fn limit)

/-- One step never changes the number of workers. -/
theorem poolStep_workers_length {α β : Type} (items : List α) (fn : α → Nat → β)
    (st : PoolState β) (w : Nat) :
    (poolStep items fn st w).workers.length = st.workers.length := by
  cases hw : st.workers[w]? with
  | none => simp [poolStep, hw]
  | some s =>
    cases s with
    | done => simp [poolStep, hw]
    | idle => by_cases hc : st.counter < items.length <;> simp [poolStep, hw, hc]
    | running idx => cases hi : items[idx]? <;> simp [poolStep, hw, hi]

/-- The number of workers never changes during a run. -/
theorem run_workers_length {α β : Type} (items : List α) (fn : α → Nat → β) (limit : Nat)
    (sched : List Nat) :
    (mapLimitRun items fn limit sched).workers.length = min limit items.length := by
  rw [mapLimitRun]
  have : ∀ (ws : List Nat) (st : PoolState β),
      (ws.foldl (poolStep items fn) st).workers.length = st.workers.length := by
    intro ws
    induction ws with
    | nil => intro st; rfl
    | cons w ws ih =>
      intro st
      rw [List.foldl_cons, ih, poolStep_workers_length]
  rw [this]
  simp [initState]

/-- C9: for every symbol list, concurrency limit of at least one, and worker
function, once every pool worker has returned the output array has the input's
length and holds at index `i` the function's result on input element `i`,
whatever the schedule (completion order) and limit were; a failure value
produced for one index occupies only that index. -/
theorem mapLimit_preserves_order {α β : Type} (items : List α) (fn : α → Nat → β)
    (limit : Nat) (hl : 1 ≤ limit) (sched : List Nat)
    (hdone : allDone (mapLimitRun items fn limit sched) = true) :
    (mapLimitRun items fn limit sched).out.length = items.length
      ∧ ∀ j : Nat, (mapLimitRun items fn limit sched).out[j]? =
          (items[j]?).map (fun a => some (fn a j)) := by
  obtain ⟨h1, h2, h3, h4, h5⟩ := poolInv_run items fn limit sched
  refine ⟨h1, ?_⟩
  have hdone' : ∀ (u : Nat) (x : WStatus),
      (mapLimitRun items fn limit sched).workers[u]? = some x → x = WStatus.done := by
    rw [allDone, List.all_eq_true] at hdone
    intro u x hx
    have hmem := List.getElem?_mem hx
    have := hdone x hmem
    exact of_decide_eq_true this
  intro j
  by_cases hj : j < items.length
  · have hwlen := run_workers_length items fn limit sched
    have hpos : 0 < (mapLimitRun items fn limit sched).workers.length := by omega
    have hs : (mapLimitRun items fn limit sched).workers[0]? =
        some ((mapLimitRun items fn limit sched).workers[0]) :=
      List.getElem?_eq_getElem hpos
    have hsd := hdone' 0 _ hs
    rw [hsd] at hs
    have hcnt : items.length ≤ (mapLimitRun items fn limit sched).counter := h5 ⟨0, hs⟩
    rcases h3 j (by omega) hj with ⟨b, hb⟩ | ⟨u, hu⟩
    · obtain ⟨a, ha, hba⟩ := h2 j b hb
      rw [hb, ha, hba]
      rfl
    · have := hdone' u _ hu
      exact absurd this (by intro h; exact WStatus.noConfusion h)
  · rw [List.getElem?_eq_none (by omega), List.getElem?_eq_none (l := items) (by omega)]
    rfl

/-- Witness for C9: a two-worker schedule completing three items out of order
still produces the in-order output array. -/
theorem mapLimit_preserves_order_witness :
    (mapLimitRun [10, 20, 30] (fun a i => a + i) 2 [0, 0, 0, 1, 0, 1, 0, 1]).out[1]? =
      some (some 21) := by
  have h := mapLimit_preserves_order [10, 20, 30] (fun a i => a + i) 2 (by decide)
    [0, 0, 0, 1, 0, 1, 0, 1] (by decide)
  rw [h.2 1]
  rfl

/-! ### Value normalization (C3, C4) -/

/-- Dropping while a predicate fails on the head changes nothing. -/
theorem dropWhile_eq_self_of_head {α : Type} (p : α → Bool) (l : List α)
    (h : ∀ c, l.head? = some c → p c = false) : l.dropWhile p = l := by
  cases l with
  | nil => rfl
  | cons c cs =>
    rw [List.dropWhile_cons, h c rfl]
    simp

/-- Trimming is the identity on a list of non-whitespace characters. -/
theorem jsTrim_eq_self_of_all (l : List Char) (h : ∀ c ∈ l, isWs c = false) :
    jsTrim l = l := by
  have h1 : l.dropWhile isWs = l := by
    apply dropWhile_eq_self_of_head
    intro c hc
    cases l with
    | nil => simp at hc
    | cons x xs =>
      simp only [List.head?_cons, Option.some.injEq] at hc
      subst hc
      exact h x (List.mem_cons_self x xs)
  have h2 : l.reverse.dropWhile isWs = l.reverse := by
    apply dropWhile_eq_self_of_head
    intro c hc
    rw [List.head?_reverse] at hc
    exact h c (List.mem_of_getLast?_eq_some hc)
  rw [jsTrim, h1, h2, List.reverse_reverse]

/-- C4: parsePctLoose trims, strips a wrapping parenthesis pair without
changing the sign, strips one trailing percent sign, and applies the loose
numeric parse; null/empty input yields null without raising. -/
theorem parsePctLoose_spec :
    parsePctLoose none = none
    ∧ (∀ s : String, jsTrim s.data = [] → parsePctLoose (some s) = none)
    ∧ parsePctLoose (some "(+1.98%)") = some (99 / 50)
    ∧ parsePctLoose (some "-1.98%") = some (-(99 / 50))
    ∧ parsePctLoose (some "0%") = some 0
    ∧ parsePctLoose (some "(-2.5%)") = some (-(5 / 2)) := by
  refine ⟨rfl, ?_, ?_, ?_, ?_, ?_⟩
  · intro s h
    simp [parsePctLoose, h]
  · with_unfolding_all rfl
  · with_unfolding_all rfl
  · with_unfolding_all rfl
  · with_unfolding_all rfl

/-- Witness for C4 on whitespace-only input. -/
theorem parsePctLoose_spec_witness : parsePctLoose (some "   ") = none :=
  parsePctLoose_spec.2.1 "   " (by decide)

/-- Facts about decimal digit characters, proved by enumeration. -/
theorem digitChar_facts (d : Fin 10) :
    (Nat.digitChar d.val).isDigit = true ∧ (Nat.digitChar d.val).toNat - 48 = d.val
      ∧ isWs (Nat.digitChar d.val) = false ∧ Nat.digitChar d.val ≠ '+'
      ∧ Nat.digitChar d.val ≠ '-' ∧ Nat.digitChar d.val ≠ 'I'
      ∧ Nat.digitChar d.val ≠ 'x' ∧ Nat.digitChar d.val ≠ 'X'
      ∧ Nat.digitChar d.val ≠ 'o' ∧ Nat.digitChar d.val ≠ 'O'
      ∧ Nat.digitChar d.val ≠ 'b' ∧ Nat.digitChar d.val ≠ 'B'
      ∧ Nat.digitChar d.val ≠ '.' ∧ (Nat.digitChar d.val = '0' ↔ d.val = 0) := by
  revert d
  decide

/-- Version of `digitChar_facts` for a bounded natural number. -/
theorem digitChar_facts' {d : Nat} (h : d < 10) :
    (Nat.digitChar d).isDigit = true ∧ (Nat.digitChar d).toNat - 48 = d
      ∧ isWs (Nat.digitChar d) = false ∧ Nat.digitChar d ≠ '+'
      ∧ Nat.digitChar d ≠ '-' ∧ Nat.digitChar d ≠ 'I'
      ∧ Nat.digitChar d ≠ 'x' ∧ Nat.digitChar d ≠ 'X'
      ∧ Nat.digitChar d ≠ 'o' ∧ Nat.digitChar d ≠ 'O'
      ∧ Nat.digitChar d ≠ 'b' ∧ Nat.digitChar d ≠ 'B'
      ∧ Nat.digitChar d ≠ '.' ∧ (Nat.digitChar d = '0' ↔ d = 0) :=
  digitChar_facts ⟨d, h⟩

/-- takeWhile passes over a prefix on which the predicate holds. -/
theorem takeWhile_append_of_all {α : Type} (p : α → Bool) (a b : List α)
    (h : ∀ x ∈ a, p x = true) : (a ++ b).takeWhile p = a ++ b.takeWhile p := by
  induction a with
  | nil => simp
  | cons x xs ih =>
    rw [List.cons_append, List.takeWhile_cons, h x (by simp)]
    rw [ih (fun y hy => h y (by simp [hy]))]
    rfl

/-- dropWhile skips a prefix on which the predicate holds. -/
theorem dropWhile_append_of_all {α : Type} (p : α → Bool) (a b : List α)
    (h : ∀ x ∈ a, p x = true) : (a ++ b).dropWhile p = b.dropWhile p := by
  induction a with
  | nil => simp
  | cons x xs ih =>
    rw [List.cons_append, List.dropWhile_cons, h x (by simp)]
    exact ih (fun y hy => h y (by simp [hy]))

/-- The digit-character fold computes the digit-list fold. -/
theorem foldl_digitChar_eq (ds : List Nat) (h : ∀ d ∈ ds, d < 10) (acc : Nat) :
    (ds.map Nat.digitChar).foldl (fun a c => 10 * a + (c.toNat - 48)) acc
      = ds.foldl (fun a d => 10 * a + d) acc := by
  induction ds generalizing acc with
  | nil => rfl
  | cons d ds ih =>
    simp only [List.map_cons, List.foldl_cons]
    rw [(digitChar_facts' (h d (by simp))).2.1]
    exact ih (fun y hy => h y (by simp [hy])) _

/-- `digitsValNat` on rendered digits equals `digitsToNat`. -/
theorem digitsValNat_map (ds : List Nat) (h : ∀ d ∈ ds, d < 10) :
    digitsValNat (ds.map Nat.digitChar) = digitsToNat ds :=
  foldl_digitChar_eq ds h 0

/-- Every character of a non-whitespace family rendering is non-whitespace. -/
theorem mkNumChars_no_ws (sgn : Option Char) (ds fs : List Nat)
    (hsgn : sgn = none ∨ sgn = some '+' ∨ sgn = some '-')
    (hds : ∀ d ∈ ds, d < 10) (hfs : ∀ d ∈ fs, d < 10) :
    ∀ c ∈ mkNumChars sgn ds fs, isWs c = false := by
  intro c hc
  simp only [mkNumChars] at hc
  rcases List.mem_append.mp hc with hc1 | hc2
  · rcases List.mem_append.mp hc1 with hs | hd
    · rcases hsgn with h | h | h <;> subst h
      · simp at hs
      · simp at hs
        subst hs
        decide
      · simp at hs
        subst hs
        decide
    · obtain ⟨d, hd1, hd2⟩ := List.mem_map.mp hd
      subst hd2
      exact (digitChar_facts' (hds d hd1)).2.2.1
  · by_cases hfe : fs = []
    · simp [hfe] at hc2
    · rw [if_neg hfe] at hc2
      rcases List.mem_cons.mp hc2 with h | h
      · subst h
        decide
      · obtain ⟨d, hd1, hd2⟩ := List.mem_map.mp h
        subst hd2
        exact (digitChar_facts' (hfs d hd1)).2.2.1

/-- Rendered digit runs satisfy `Char.isDigit`. -/
theorem all_isDigit_map (ds : List Nat) (h : ∀ d ∈ ds, d < 10) :
    ∀ x ∈ ds.map Nat.digitChar, Char.isDigit x = true := by
  intro x hx
  obtain ⟨d, hd1, rfl⟩ := List.mem_map.mp hx
  exact (digitChar_facts' (h d hd1)).1

/-- The unsigned family body matches the `\d+(?:\.\d+)?$` tail. -/
theorem decNumTail_body (ds fs : List Nat) (hne : ds ≠ [])
    (hds : ∀ d ∈ ds, d < 10) (hfs : ∀ d ∈ fs, d < 10) :
    decNumTail (ds.map Nat.digitChar
      ++ (if fs = [] then [] else '.' :: fs.map Nat.digitChar)) = true := by
  have hallds := all_isDigit_map ds hds
  have hallfs := all_isDigit_map fs hfs
  have hmapne : ds.map Nat.digitChar ≠ [] := by
    simpa using hne
  simp only [decNumTail]
  rw [takeWhile_append_of_all _ _ _ hallds, dropWhile_append_of_all _ _ _ hallds]
  by_cases hfe : fs = []
  · subst hfe
    simp [hmapne]
  · rw [if_neg hfe]
    have hdot : ('.' : Char).isDigit = false := by decide
    rw [List.takeWhile_cons, List.dropWhile_cons, hdot]
    simp only [Bool.false_eq_true, if_false, List.append_nil]
    rw [if_neg hmapne]
    show (!(fs.map Nat.digitChar).isEmpty && (fs.map Nat.digitChar).all Char.isDigit) = true
    have hfsne : fs.map Nat.digitChar ≠ [] := by
      simpa using hfe
    rw [Bool.and_eq_true]
    constructor
    · rw [Bool.not_eq_true', List.isEmpty_eq_false]
      exact hfsne
    · rw [List.all_eq_true]
      exact hallfs

/-- The whole family rendering matches the anchored suffix-regex numeric part. -/
theorem decNumMatch_mkNumChars (sgn : Option Char) (ds fs : List Nat)
    (hsgn : sgn = none ∨ sgn = some '+' ∨ sgn = some '-') (hne : ds ≠ [])
    (hds : ∀ d ∈ ds, d < 10) (hfs : ∀ d ∈ fs, d < 10) :
    decNumMatch (mkNumChars sgn ds fs) = true := by
  have hbody := decNumTail_body ds fs hne hds hfs
  rcases hsgn with h | h | h <;> subst h
  · cases ds with
    | nil => exact absurd rfl hne
    | cons d0 ds' =>
      have h1 := (digitChar_facts' (hds d0 (by simp))).2.2.2.1
      have h2 := (digitChar_facts' (hds d0 (by simp))).2.2.2.2.1
      simp only [mkNumChars, List.nil_append, List.map_cons, List.cons_append, decNumMatch]
      rw [if_neg (by simp [h1, h2])]
      simpa [List.map_cons, List.cons_append] using hbody
  · simp only [mkNumChars, List.cons_append, List.nil_append, decNumMatch,
      List.singleton_append]
    simpa using hbody
  · simp only [mkNumChars, List.cons_append, List.nil_append, decNumMatch,
      List.singleton_append]
    simpa using hbody

/-- The unsigned family body parses to its denoted value. -/
theorem unsignedDec_body (ds fs : List Nat) (hne : ds ≠ [])
    (hds : ∀ d ∈ ds, d < 10) (hfs : ∀ d ∈ fs, d < 10) :
    unsignedDec (ds.map Nat.digitChar
      ++ (if fs = [] then [] else '.' :: fs.map Nat.digitChar)) = some (famVal ds fs) := by
  have hallds := all_isDigit_map ds hds
  have hallfs := all_isDigit_map fs hfs
  have hmapne : ds.map Nat.digitChar ≠ [] := by
    simpa using hne
  have hinf : (ds.map Nat.digitChar
      ++ (if fs = [] then [] else '.' :: fs.map Nat.digitChar))
      ≠ ['I', 'n', 'f', 'i', 'n', 'i', 't', 'y'] := by
    cases ds with
    | nil => exact absurd rfl hne
    | cons d0 ds' =>
      intro heq
      simp only [List.map_cons, List.cons_append, List.cons.injEq] at heq
      exact (digitChar_facts' (hds d0 (by simp))).2.2.2.2.2.1 heq.1
  simp only [unsignedDec, if_neg hinf]
  rw [takeWhile_append_of_all _ _ _ hallds, dropWhile_append_of_all _ _ _ hallds]
  by_cases hfe : fs = []
  · subst hfe
    have hfrac : (if ([] : List Nat) = [] then ([] : List Char)
        else '.' :: List.map Nat.digitChar []) = [] := rfl
    rw [hfrac, List.takeWhile_nil, List.dropWhile_nil, List.append_nil]
    rw [if_neg hmapne]
    show some (digitsVal (List.map Nat.digitChar ds)) = some (famVal ds [])
    rw [digitsVal, digitsValNat_map ds hds]
    simp [famVal, digitsToNat]
  · rw [if_neg hfe]
    have hdot : ('.' : Char).isDigit = false := by decide
    rw [List.takeWhile_cons, List.dropWhile_cons, hdot]
    simp only [Bool.false_eq_true, if_false, List.append_nil]
    rw [if_neg hmapne]
    show withExp
        (digitsVal (List.map Nat.digitChar ds)
          + fracVal ((List.map Nat.digitChar fs).takeWhile Char.isDigit))
        ((List.map Nat.digitChar fs).dropWhile Char.isDigit) = some (famVal ds fs)
    rw [List.takeWhile_eq_self_iff.mpr (by simpa using hallfs)]
    rw [List.dropWhile_eq_nil_iff.mpr (by simpa using hallfs)]
    show some (digitsVal (List.map Nat.digitChar ds) + fracVal (List.map Nat.digitChar fs))
        = some (famVal ds fs)
    rw [digitsVal, fracVal, digitsValNat_map ds hds, digitsValNat_map fs hfs,
      List.length_map]
    rfl

/-- `Number()` takes the plain-decimal branch when the input starts with a
digit and every second character rules the radix prefixes out. -/
theorem jsNumber_no_radix (l : List Char) (htrim : jsTrim l = l)
    (d0 : Nat) (hd0 : d0 < 10) (r : List Char) (hl : l = Nat.digitChar d0 :: r)
    (hr : ∀ c2, r.head? = some c2 → (c2 = '.' ∨ ∃ d2, d2 < 10 ∧ c2 = Nat.digitChar d2)) :
    jsNumber l = unsignedDec l := by
  have f := digitChar_facts' hd0
  subst hl
  simp only [jsNumber, htrim]
  rw [if_neg f.2.2.2.1, if_neg f.2.2.2.2.1]
  by_cases h0 : d0 = 0
  · rw [if_pos (f.2.2.2.2.2.2.2.2.2.2.2.2.2.mpr h0)]
    cases r with
    | nil => rfl
    | cons c2 r2 =>
      show (if c2 = 'x' ∨ c2 = 'X' then radixVal 16 r2
          else if c2 = 'o' ∨ c2 = 'O' then radixVal 8 r2
          else if c2 = 'b' ∨ c2 = 'B' then radixVal 2 r2
          else unsignedDec (Nat.digitChar d0 :: c2 :: r2))
        = unsignedDec (Nat.digitChar d0 :: c2 :: r2)
      rcases hr c2 rfl with h | ⟨d2, hd2, rfl⟩
      · subst h
        rw [if_neg (by decide), if_neg (by decide), if_neg (by decide)]
      · have f2 := digitChar_facts' hd2
        rw [if_neg (by simp [f2.2.2.2.2.2.2.1, f2.2.2.2.2.2.2.2.1]),
          if_neg (by simp [f2.2.2.2.2.2.2.2.2.1, f2.2.2.2.2.2.2.2.2.2.1]),
          if_neg (by simp [f2.2.2.2.2.2.2.2.2.2.2.1, f2.2.2.2.2.2.2.2.2.2.2.2.1])]
  · rw [if_neg fun hc => h0 (f.2.2.2.2.2.2.2.2.2.2.2.2.2.mp hc)]

/-- The family rendering evaluates under `Number()` to sign times value. -/
theorem jsNumber_mkNumChars (sgn : Option Char) (ds fs : List Nat)
    (hsgn : sgn = none ∨ sgn = some '+' ∨ sgn = some '-') (hne : ds ≠ [])
    (hds : ∀ d ∈ ds, d < 10) (hfs : ∀ d ∈ fs, d < 10) :
    jsNumber (mkNumChars sgn ds fs) = some (sgnFactor sgn * famVal ds fs) := by
  have htrim : jsTrim (mkNumChars sgn ds fs) = mkNumChars sgn ds fs :=
    jsTrim_eq_self_of_all _ (mkNumChars_no_ws sgn ds fs hsgn hds hfs)
  have hbody := unsignedDec_body ds fs hne hds hfs
  rcases hsgn with h | h | h <;> subst h
  · cases ds with
    | nil => exact absurd rfl hne
    | cons d0 ds' =>
      have hshape : mkNumChars none (d0 :: ds') fs
          = Nat.digitChar d0 :: (ds'.map Nat.digitChar
            ++ (if fs = [] then [] else '.' :: fs.map Nat.digitChar)) := by
        simp [mkNumChars]
      have hhead : ∀ c2, (ds'.map Nat.digitChar
          ++ (if fs = [] then [] else '.' :: fs.map Nat.digitChar)).head? = some c2 →
          (c2 = '.' ∨ ∃ d2, d2 < 10 ∧ c2 = Nat.digitChar d2) := by
        intro c2 hc2
        cases ds' with
        | cons d1 ds'' =>
          simp only [List.map_cons, List.cons_append, List.head?_cons,
            Option.some.injEq] at hc2
          exact Or.inr ⟨d1, hds d1 (by simp), hc2.symm⟩
        | nil =>
          by_cases hfe : fs = []
          · simp [hfe] at hc2
          · rw [if_neg hfe] at hc2
            simp only [List.map_nil, List.nil_append, List.head?_cons,
              Option.some.injEq] at hc2
            exact Or.inl hc2.symm
      rw [jsNumber_no_radix _ htrim d0 (hds d0 (by simp)) _ hshape hhead]
      rw [hshape]
      have : (d0 :: ds').map Nat.digitChar
          ++ (if fs = [] then [] else '.' :: fs.map Nat.digitChar)
          = Nat.digitChar d0 :: (ds'.map Nat.digitChar
            ++ (if fs = [] then [] else '.' :: fs.map Nat.digitChar)) := by
        simp
      rw [← this, hbody]
      simp [sgnFactor]
  · have hshape : mkNumChars (some '+') ds fs
        = '+' :: (ds.map Nat.digitChar
          ++ (if fs = [] then [] else '.' :: fs.map Nat.digitChar)) := by
      simp [mkNumChars]
    rw [hshape] at htrim ⊢
    simp only [jsNumber, htrim, if_true]
    rw [hbody]
    simp [sgnFactor]
  · have hshape : mkNumChars (some '-') ds fs
        = '-' :: (ds.map Nat.digitChar
          ++ (if fs = [] then [] else '.' :: fs.map Nat.digitChar)) := by
      simp [mkNumChars]
    rw [hshape] at htrim ⊢
    simp only [jsNumber, htrim, if_true, if_false]
    rw [hbody]
    simp [sgnFactor]

/-- The suffix split succeeds on a matching body with a suffix letter. -/
theorem kmSplit_family (body : List Char) (u : Char) (hu : u ∈ suffixChars)
    (hb : decNumMatch body = true) :
    kmSplit (body ++ [u]) = some (body, u) := by
  simp only [kmSplit, List.getLast?_concat, List.dropLast_concat]
  rw [if_pos ⟨hu, hb⟩]

/-- Suffix letters are not whitespace. -/
theorem suffixChars_no_ws : ∀ x ∈ suffixChars, isWs x = false := by decide

/-- C3: parseNumberLoose trims and returns null on null/empty input; a string
of an optional sign, digits, and an optional decimal part followed directly by
a case-insensitive suffix k/m/g/b parses to the number times 10³/10⁶/10⁹/10⁹;
otherwise commas and whitespace are stripped and a plain decimal is parsed,
null when not finite.  "10.6k" → 10600, "730m" → 730000000,
"1,234.5" → 1234.5, garbage → null. -/
theorem parseNumberLoose_spec :
    parseNumberLoose none = none
    ∧ (∀ s : String, jsTrim s.data = [] → parseNumberLoose (some s) = none)
    ∧ (∀ (sgn : Option Char) (ds fs : List Nat) (u : Char),
        (sgn = none ∨ sgn = some '+' ∨ sgn = some '-') → ds ≠ [] →
        (∀ d ∈ ds, d < 10) → (∀ d ∈ fs, d < 10) → u ∈ suffixChars →
        parseNumberLoose (some (String.mk (mkNumChars sgn ds fs ++ [u]))) =
          some (sgnFactor sgn * famVal ds fs * multOf u))
    ∧ parseNumberLoose (some "10.6k") = some 10600
    ∧ parseNumberLoose (some "730m") = some 730000000
    ∧ parseNumberLoose (some "1,234.5") = some (2469 / 2)
    ∧ parseNumberLoose (some "abc") = none
    ∧ parseNumberLoose (some "  12 ") = some 12 := by
  refine ⟨rfl, ?_, ?_, ?_, ?_, ?_, ?_, ?_⟩
  · intro s h
    simp [parseNumberLoose, h]
  · intro sgn ds fs u hsgn hne hds hfs hu
    have hb := decNumMatch_mkNumChars sgn ds fs hsgn hne hds hfs
    have hjs := jsNumber_mkNumChars sgn ds fs hsgn hne hds hfs
    have hl : (String.mk (mkNumChars sgn ds fs ++ [u])).data
        = mkNumChars sgn ds fs ++ [u] := rfl
    have hnows : ∀ c ∈ mkNumChars sgn ds fs ++ [u], isWs c = false := by
      intro c hc
      rcases List.mem_append.mp hc with h | h
      · exact mkNumChars_no_ws sgn ds fs hsgn hds hfs c h
      · simp only [List.mem_singleton] at h
        subst h
        exact suffixChars_no_ws c hu
    have htrim := jsTrim_eq_self_of_all _ hnows
    have htne : mkNumChars sgn ds fs ++ [u] ≠ [] := by
      simp
    simp only [parseNumberLoose, hl, htrim]
    rw [if_neg htne]
    simp only [kmSplit_family _ u hu hb, hjs]
  · with_unfolding_all rfl
  · with_unfolding_all rfl
  · with_unfolding_all rfl
  · with_unfolding_all rfl
  · with_unfolding_all rfl

/-- Witness for C3: the suffix family at sign −, digits 1, fraction 5, suffix
K yields −1500 for "-1.5K". -/
theorem parseNumberLoose_spec_witness :
    parseNumberLoose (some "-1.5K") = some (-1500) := by
  have h := parseNumberLoose_spec.2.2.1 (some '-') [1] [5] 'K'
    (Or.inr (Or.inr rfl)) (by decide) (by decide) (by decide) (by decide)
  have he : String.mk (mkNumChars (some '-') [1] [5] ++ ['K']) = "-1.5K" := by
    with_unfolding_all rfl
  rw [he] at h
  rw [h]
  with_unfolding_all rfl

/-! ### The field extractor (C1) -/

/-- A successful split decomposes the input around the first occurrence. -/
theorem splitAtChar_eq (c : Char) (s a b : List Char)
    (h : splitAtChar c s = some (a, b)) : s = a ++ c :: b ∧ c ∉ a := by
  induction s generalizing a b with
  | nil => simp [splitAtChar] at h
  | cons x xs ih =>
    rw [splitAtChar] at h
    by_cases hx : x = c
    · rw [if_pos hx] at h
      simp only [Option.some.injEq, Prod.mk.injEq] at h
      obtain ⟨rfl, rfl⟩ := h
      subst hx
      simp
    · rw [if_neg hx] at h
      cases hs : splitAtChar c xs with
      | none => rw [hs] at h; simp at h
      | some p =>
        obtain ⟨a2, b2⟩ := p
        rw [hs] at h
        simp only [Option.map_some', Option.some.injEq, Prod.mk.injEq] at h
        obtain ⟨rfl, rfl⟩ := h
        obtain ⟨hx1, hx2⟩ := ih a2 b2 hs
        subst hx1
        refine ⟨by simp, ?_⟩
        simp only [List.mem_cons, not_or]
        exact ⟨fun he => hx he.symm, hx2⟩

/-- The split succeeds on an input shaped around the first occurrence. -/
theorem splitAtChar_of (c : Char) (a b : List Char) (h : c ∉ a) :
    splitAtChar c (a ++ c :: b) = some (a, b) := by
  induction a with
  | nil => simp [splitAtChar]
  | cons x xs ih =>
    rw [List.cons_append, splitAtChar]
    rw [if_neg (by intro he; subst he; exact h (List.mem_cons_self x xs))]
    rw [ih (fun hm => h (List.mem_cons_of_mem x hm))]
    rfl

/-- A successful key match leaves a suffix no longer than the input. -/
theorem matchCI_length (p : List Char) :
    ∀ s r : List Char, matchCI p s = some r → r.length ≤ s.length := by
  induction p with
  | nil =>
    intro s r h
    simp only [matchCI, Option.some.injEq] at h
    subst h
    exact le_rfl
  | cons q ps ih =>
    intro s r h
    cases s with
    | nil => simp [matchCI] at h
    | cons c cs =>
      simp only [matchCI] at h
      by_cases hc : ciEq q c
      · rw [if_pos hc] at h
        have := ih cs r h
        simp only [List.length_cons]
        omega
      · rw [if_neg hc] at h
        simp at h

/-- The `[^>]*>([^<]*)<` tail consumes at least two characters. -/
theorem matchRest_length (s cap after : List Char)
    (h : matchRest s = some (cap, after)) : after.length < s.length := by
  cases h1 : splitAtChar '>' s with
  | none =>
    simp only [matchRest, h1] at h
    exact Option.noConfusion h
  | some p1 =>
    obtain ⟨sk, r2⟩ := p1
    cases h2 : splitAtChar '<' r2 with
    | none =>
      simp only [matchRest, h1, h2] at h
      exact Option.noConfusion h
    | some p2 =>
      obtain ⟨cap2, after2⟩ := p2
      simp only [matchRest, h1, h2, Option.some.injEq, Prod.mk.injEq] at h
      obtain ⟨rfl, rfl⟩ := h
      have e1 := (splitAtChar_eq _ _ _ _ h1).1
      have e2 := (splitAtChar_eq _ _ _ _ h2).1
      subst e1
      subst e2
      simp [List.length_append]
      omega

/-- The optional-quote step consumes at least as much as `matchRest`. -/
theorem matchSecond_length (s cap after : List Char)
    (h : matchSecond s = some (cap, after)) : after.length < s.length := by
  cases s with
  | nil =>
    rw [matchSecond] at h
    exact absurd (matchRest_length _ _ _ h) (by simp)
  | cons c rest =>
    rw [matchSecond] at h
    by_cases hq : isQuoteChar c
    · rw [if_pos hq] at h
      cases hr : matchRest rest with
      | some p =>
        rw [hr] at h
        simp only [Option.some.injEq] at h
        subst h
        have := matchRest_length _ _ _ hr
        simp only [List.length_cons]
        omega
      | none =>
        rw [hr] at h
        exact matchRest_length _ _ _ h
    · rw [if_neg hq] at h
      exact matchRest_length _ _ _ h

/-- The whole group match consumes at least one character. -/
theorem matchFirst_length (id s cap after : List Char)
    (h : matchFirst id s = some (cap, after)) : after.length < s.length := by
  have halt2 : ∀ r : List Char, matchCI id s = some r →
      matchSecond r = some (cap, after) → after.length < s.length := by
    intro r hm hs
    have h1 := matchCI_length id s r hm
    have h2 := matchSecond_length r cap after hs
    omega
  rw [matchFirst.eq_def] at h
  cases s with
  | nil =>
    dsimp only at h
    cases hm : matchCI id [] with
    | none =>
      simp only [hm] at h
      exact Option.noConfusion h
    | some r =>
      simp only [hm] at h
      exact halt2 r hm h
  | cons c rest =>
    dsimp only at h
    by_cases hq : isQuoteChar c = true
    · rw [if_pos hq] at h
      cases hm : matchCI id rest with
      | none =>
        simp only [hm] at h
        cases hm2 : matchCI id (c :: rest) with
        | none =>
          simp only [hm2] at h
          exact Option.noConfusion h
        | some r2 =>
          simp only [hm2] at h
          exact halt2 r2 hm2 h
      | some r =>
        simp only [hm] at h
        cases hs : matchSecond r with
        | some x =>
          simp only [hs] at h
          rw [Option.some.injEq] at h
          subst h
          have h1 := matchCI_length id rest r hm
          have h2 := matchSecond_length r cap after hs
          simp only [List.length_cons]
          omega
        | none =>
          simp only [hs] at h
          cases hm2 : matchCI id (c :: rest) with
          | none =>
            simp only [hm2] at h
            exact Option.noConfusion h
          | some r2 =>
            simp only [hm2] at h
            exact halt2 r2 hm2 h
    · rw [if_neg hq] at h
      cases hm2 : matchCI id (c :: rest) with
      | none =>
        simp only [hm2] at h
        exact Option.noConfusion h
      | some r2 =>
        simp only [hm2] at h
        exact halt2 r2 hm2 h

/-- A pattern match at a position consumes at least four characters. -/
theorem matchAt_length (id : List Char) (prev : Option Char) (s cap after : List Char)
    (h : matchAt id prev s = some (cap, after)) : after.length < s.length := by
  rw [matchAt.eq_def] at h
  split at h
  · exact Option.noConfusion h
  · split at h
    · split at h
      · have := matchFirst_length id _ cap after h
        simp only [List.length_cons]
        omega
      · exact Option.noConfusion h
    · exact Option.noConfusion h

/-- The scan result is fuel-independent once the fuel covers the input. -/
theorem scanAux_mono (key : List Char) (n : Nat) :
    ∀ s : List Char, s.length ≤ n → ∀ f1 f2 prev acc, s.length ≤ f1 → s.length ≤ f2 →
      scanAux key f1 prev s acc = scanAux key f2 prev s acc := by
  induction n with
  | zero =>
    intro s hs f1 f2 prev acc h1 h2
    have : s = [] := by
      cases s
      · rfl
      · simp at hs
    subst this
    cases f1 <;> cases f2 <;> rfl
  | succ n ih =>
    intro s hs f1 f2 prev acc h1 h2
    cases s with
    | nil => cases f1 <;> cases f2 <;> rfl
    | cons c rest =>
      cases f1 with
      | zero => simp at h1
      | succ f1p =>
        cases f2 with
        | zero => simp at h2
        | succ f2p =>
          simp only [scanAux]
          cases hm : matchAt key prev (c :: rest) with
          | none =>
            have hr : rest.length ≤ n := by
              simp only [List.length_cons] at hs
              omega
            exact ih rest hr f1p f2p (some c) acc (by simp at h1; omega)
              (by simp at h2; omega)
          | some pr =>
            obtain ⟨cap, after⟩ := pr
            have hlt := matchAt_length key prev _ _ _ hm
            simp only [List.length_cons] at hlt hs h1 h2
            exact ih after (by omega) f1p f2p (some '<') (some cap) (by omega) (by omega)

/-- Only `>` itself matches `>` case-insensitively. -/
theorem ciEq_gt (c : Char) (h : ciEq c '>' = true) : c = '>' := by
  rw [ciEq] at h
  simp only [Bool.or_eq_true, beq_iff_eq, Bool.and_eq_true] at h
  rcases h with (h | ⟨hu, he⟩) | ⟨hu, he⟩
  · exact h
  · rw [isUpperAscii, Bool.and_eq_true, decide_eq_true_eq, decide_eq_true_eq] at hu
    have h62 : ('>' : Char).toNat = 62 := rfl
    rw [h62] at he
    omega
  · exact absurd hu (by decide)

/-- A case-insensitive prefix makes the key match, leaving the remainder. -/
theorem matchCI_append (p : List Char) :
    ∀ l x : List Char, ciStartsWith p l = true →
      matchCI p (l ++ x) = some (l.drop p.length ++ x) := by
  induction p with
  | nil =>
    intro l x _
    simp [matchCI]
  | cons q ps ih =>
    intro l x h
    cases l with
    | nil => simp [ciStartsWith] at h
    | cons c cs =>
      rw [ciStartsWith, Bool.and_eq_true] at h
      rw [List.cons_append, matchCI, if_pos h.1, ih cs x h.2]
      rfl

/-- Without the case-insensitive prefix (and with no `>` in the key), the key
match fails before crossing the closing `>`. -/
theorem matchCI_append_none (p : List Char) (hp : '>' ∉ p) :
    ∀ l x : List Char, ciStartsWith p l = false →
      matchCI p (l ++ '>' :: x) = none := by
  induction p with
  | nil =>
    intro l x h
    simp [ciStartsWith] at h
  | cons q ps ih =>
    intro l x h
    cases l with
    | nil =>
      rw [List.nil_append, matchCI]
      rw [if_neg]
      intro hq
      exact hp (ciEq_gt q hq ▸ List.mem_cons_self q ps)
    | cons c cs =>
      rw [ciStartsWith] at h
      rw [List.cons_append, matchCI]
      rcases Bool.and_eq_false_iff.mp h with h1 | h2
      · rw [if_neg (by simp [h1])]
      · by_cases hc : ciEq q c = true
        · rw [if_pos hc]
          exact ih (fun hm => hp (List.mem_cons_of_mem q hm)) cs x h2
        · rw [if_neg hc]

/-- The `[^>]*>([^<]*)<` tail on the rendered shape. -/
theorem matchRest_render (rem text tail : List Char) (hrem : '>' ∉ rem)
    (htext : '<' ∉ text) :
    matchRest (rem ++ '>' :: (text ++ '<' :: tail)) = some (text, tail) := by
  simp only [matchRest, splitAtChar_of '>' rem _ hrem, splitAtChar_of '<' text tail htext]

/-- The optional second quote on the rendered shape (no quote follows). -/
theorem matchSecond_render (rem text tail : List Char) (hrem1 : '>' ∉ rem)
    (hrem2 : ∀ c ∈ rem, isQuoteChar c = false) (htext : '<' ∉ text) :
    matchSecond (rem ++ '>' :: (text ++ '<' :: tail)) = some (text, tail) := by
  cases rem with
  | nil =>
    rw [List.nil_append, matchSecond]
    rw [if_neg (by decide)]
    exact matchRest_render [] text tail (by simp) htext
  | cons c cs =>
    rw [List.cons_append, matchSecond]
    rw [if_neg (by simp [hrem2 c (List.mem_cons_self c cs)])]
    exact matchRest_render (c :: cs) text tail hrem1 htext

/-- The whole group on the rendered shape, success case. -/
theorem matchFirst_render (key id text tail : List Char)
    (hci : ciStartsWith key id = true)
    (hidq : ∀ c ∈ id, isQuoteChar c = false) (hidgt : '>' ∉ id)
    (htext : '<' ∉ text) :
    matchFirst key (id ++ '>' :: (text ++ '<' :: tail)) = some (text, tail) := by
  have hrem1 : '>' ∉ id.drop key.length := fun hm => hidgt (List.mem_of_mem_drop hm)
  have hrem2 : ∀ c ∈ id.drop key.length, isQuoteChar c = false :=
    fun c hm => hidq c (List.mem_of_mem_drop hm)
  have halt2 : matchCI key (id ++ '>' :: (text ++ '<' :: tail))
      = some (id.drop key.length ++ '>' :: (text ++ '<' :: tail)) :=
    matchCI_append key id _ hci
  have hsec := matchSecond_render (id.drop key.length) text tail hrem1 hrem2 htext
  rw [matchFirst.eq_def]
  cases id with
  | nil =>
    simp only [List.nil_append] at halt2 hsec ⊢
    simp only [List.drop_nil, List.nil_append] at halt2 hsec
    rw [if_neg (by decide)]
    simp only [halt2]
    exact hsec
  | cons c0 id2 =>
    simp only [List.cons_append] at halt2 ⊢
    rw [if_neg (by simp [hidq c0 (List.mem_cons_self c0 id2)])]
    simp only [halt2]
    exact hsec

/-- The whole group on the rendered shape, failure case. -/
theorem matchFirst_render_none (key id text tail : List Char)
    (hci : ciStartsWith key id = false) (hkgt : '>' ∉ key)
    (hidq : ∀ c ∈ id, isQuoteChar c = false) :
    matchFirst key (id ++ '>' :: (text ++ '<' :: tail)) = none := by
  have halt2 : matchCI key (id ++ '>' :: (text ++ '<' :: tail)) = none :=
    matchCI_append_none key hkgt id _ hci
  rw [matchFirst.eq_def]
  cases id with
  | nil =>
    simp only [List.nil_append] at halt2 ⊢
    rw [if_neg (by decide)]
    simp only [halt2]
  | cons c0 id2 =>
    simp only [List.cons_append] at halt2 ⊢
    rw [if_neg (by simp [hidq c0 (List.mem_cons_self c0 id2)])]
    simp only [halt2]

/-- A position whose character is not `i`/`I` never begins a match. -/
theorem matchAt_none_of_head (key : List Char) (prev : Option Char) (c : Char)
    (s : List Char) (h1 : c ≠ 'i') (h2 : c ≠ 'I') :
    matchAt key prev (c :: s) = none := by
  rw [matchAt.eq_def]
  split
  · rfl
  · cases s with
    | nil => rfl
    | cons c2 s2 =>
      cases s2 with
      | nil => rfl
      | cons c3 s3 =>
        dsimp only
        rw [if_neg]
        intro hcond
        rcases hcond.1 with h | h
        · exact h1 h
        · exact h2 h

/-- The pattern at a literal `id=` after a space boundary reduces to the
group match. -/
theorem matchAt_ide (key : List Char) (rest : List Char) :
    matchAt key (some ' ') ('i' :: 'd' :: '=' :: rest) = matchFirst key rest := by
  rw [matchAt.eq_def]
  rw [if_neg (by decide)]
  dsimp only
  rw [if_pos (by exact ⟨Or.inl rfl, Or.inl rfl, rfl⟩)]

/-- One scan step over a non-matching position. -/
theorem scanAux_step_none (key : List Char) (fuel : Nat) (prev : Option Char)
    (c : Char) (rest : List Char) (acc : Option (List Char))
    (h : matchAt key prev (c :: rest) = none) :
    scanAux key (fuel + 1) prev (c :: rest) acc = scanAux key fuel (some c) rest acc := by
  simp only [scanAux, h]

/-- One scan step over a matching position. -/
theorem scanAux_step_some (key : List Char) (fuel : Nat) (prev : Option Char)
    (c : Char) (rest cap after : List Char) (acc : Option (List Char))
    (h : matchAt key prev (c :: rest) = some (cap, after)) :
    scanAux key (fuel + 1) prev (c :: rest) acc
      = scanAux key fuel (some '<') after (some cap) := by
  simp only [scanAux, h]

/-- The scan walks over a run of characters that can never begin a match. -/
theorem scanAux_skips (key : List Char) :
    ∀ p : List Char, (∀ c ∈ p, c ≠ 'i' ∧ c ≠ 'I') →
    ∀ fuel : Nat, p.length ≤ fuel →
    ∀ (prev : Option Char) (s : List Char) (acc : Option (List Char)),
      ∃ prev2, scanAux key fuel prev (p ++ s) acc
        = scanAux key (fuel - p.length) prev2 s acc := by
  intro p
  induction p with
  | nil =>
    intro _ fuel _ prev s acc
    exact ⟨prev, by simp⟩
  | cons c cs ih =>
    intro hp fuel hf prev s acc
    cases fuel with
    | zero => simp at hf
    | succ f =>
      have h1 := hp c (List.mem_cons_self c cs)
      have hlen : f + 1 - (c :: cs).length = f - cs.length := by
        simp only [List.length_cons]
        omega
      obtain ⟨prev2, h2⟩ := ih (fun x hx => hp x (List.mem_cons_of_mem c hx)) f
        (by simp only [List.length_cons] at hf; omega) (some c) s acc
      refine ⟨prev2, ?_⟩
      rw [List.cons_append,
        scanAux_step_none key f prev c (cs ++ s) acc
          (matchAt_none_of_head key prev c _ h1.1 h1.2),
        hlen]
      exact h2

/-- Scanning one rendered element: the element contributes its text to the
accumulator exactly when the key is a case-insensitive prefix of its
identifier, and the scan then continues after the element. -/
theorem scanAux_elem (key : List Char) (hk : '>' ∉ key) (e : Elem) (he : GoodElem e)
    (s : List Char) (fuel : Nat) (hf : (elemChars e).length + s.length ≤ fuel)
    (prev : Option Char) (acc : Option (List Char)) :
    ∃ prev2, scanAux key fuel prev (elemChars e ++ s) acc
      = scanAux key s.length prev2 s
          (if ciStartsWith key e.id.data then some e.text.data else acc) := by
  obtain ⟨hid, htext⟩ := he
  have hidq : ∀ c ∈ e.id.data, isQuoteChar c = false := fun c hc => (hid c hc).2.2.1
  have hidgt : '>' ∉ e.id.data := fun hm => (hid _ hm).2.2.2 rfl
  have htextlt : '<' ∉ e.text.data := fun hm => (htext _ hm).2.2 rfl
  have h9 : ("<span id=".data).length = 9 := rfl
  have h7 : ("</span>".data).length = 7 := rfl
  have hlen : (elemChars e).length = e.id.data.length + e.text.data.length + 17 := by
    simp [elemChars, h9, h7]
    omega
  have hshape : elemChars e ++ s = "<span".data
      ++ (' ' :: 'i' :: 'd' :: '=' ::
        (e.id.data ++ '>' :: (e.text.data ++ '<' :: ("/span>".data ++ s)))) := by
    show ("<span id=".data ++ e.id.data ++ '>' :: (e.text.data ++ "</span>".data)) ++ s = _
    have hlit : "<span id=".data = "<span".data ++ [' ', 'i', 'd', '='] := rfl
    have hlit2 : "</span>".data = '<' :: "/span>".data := rfl
    rw [hlit, hlit2]
    simp [List.append_assoc]
  rw [hshape]
  have h5 : ∀ c ∈ ("<span".data), c ≠ 'i' ∧ c ≠ 'I' := by decide
  have h5len : ("<span".data).length = 5 := rfl
  obtain ⟨pv1, hsk1⟩ := scanAux_skips key "<span".data h5 fuel (by omega) prev
    (' ' :: 'i' :: 'd' :: '=' ::
      (e.id.data ++ '>' :: (e.text.data ++ '<' :: ("/span>".data ++ s)))) acc
  rw [hsk1, h5len]
  obtain ⟨f2, hf2, hb2⟩ : ∃ f2, fuel - 5 = f2 + 1 + 1
      ∧ e.id.data.length + e.text.data.length + 10 + s.length ≤ f2 := by
    refine ⟨fuel - 7, by omega, by omega⟩
  rw [hf2]
  rw [scanAux_step_none key (f2 + 1) pv1 ' ' _ acc
    (matchAt_none_of_head key pv1 ' ' _ (by decide) (by decide))]
  by_cases hci : ciStartsWith key e.id.data = true
  · have hmatch : matchAt key (some ' ')
        ('i' :: 'd' :: '=' ::
          (e.id.data ++ '>' :: (e.text.data ++ '<' :: ("/span>".data ++ s))))
        = some (e.text.data, "/span>".data ++ s) := by
      rw [matchAt_ide]
      exact matchFirst_render key e.id.data e.text.data ("/span>".data ++ s)
        hci hidq hidgt htextlt
    rw [scanAux_step_some key f2 (some ' ') 'i' _ _ _ acc hmatch]
    have h6 : ∀ c ∈ ("/span>".data), c ≠ 'i' ∧ c ≠ 'I' := by decide
    have h6len : ("/span>".data).length = 6 := rfl
    obtain ⟨pv2, hsk2⟩ := scanAux_skips key "/span>".data h6 f2 (by omega) (some '<')
      s (some e.text.data)
    rw [hsk2, h6len]
    rw [scanAux_mono key s.length s le_rfl (f2 - 6) s.length pv2 (some e.text.data)
      (by omega) le_rfl]
    rw [if_pos hci]
    exact ⟨pv2, rfl⟩
  · have hmatch : matchAt key (some ' ')
        ('i' :: 'd' :: '=' ::
          (e.id.data ++ '>' :: (e.text.data ++ '<' :: ("/span>".data ++ s))))
        = none := by
      rw [matchAt_ide]
      exact matchFirst_render_none key e.id.data e.text.data ("/span>".data ++ s)
        (by simpa using hci) hk hidq
    rw [scanAux_step_none key f2 (some ' ') 'i' _ acc hmatch]
    have hsplit : ('d' :: '=' ::
          (e.id.data ++ '>' :: (e.text.data ++ '<' :: ("/span>".data ++ s))))
        = ('d' :: '=' ::
          (e.id.data ++ '>' :: (e.text.data ++ '<' :: "/span>".data))) ++ s := by
      simp [List.append_assoc]
    rw [hsplit]
    have hp2 : ∀ c ∈ ('d' :: '=' ::
        (e.id.data ++ '>' :: (e.text.data ++ '<' :: "/span>".data))), c ≠ 'i' ∧ c ≠ 'I' := by
      intro c hc
      rcases List.mem_cons.mp hc with rfl | hc1
      · exact ⟨by decide, by decide⟩
      rcases List.mem_cons.mp hc1 with rfl | hc2
      · exact ⟨by decide, by decide⟩
      rcases List.mem_append.mp hc2 with h | hc3
      · exact ⟨(hid c h).1, (hid c h).2.1⟩
      rcases List.mem_cons.mp hc3 with rfl | hc4
      · exact ⟨by decide, by decide⟩
      rcases List.mem_append.mp hc4 with h | hc5
      · exact ⟨(htext c h).1, (htext c h).2.1⟩
      rcases List.mem_cons.mp hc5 with rfl | hc6
      · exact ⟨by decide, by decide⟩
      · have hsp : ∀ x ∈ ("/span>".data), x ≠ 'i' ∧ x ≠ 'I' := by decide
        exact hsp c hc6
    have hp2len : ('d' :: '=' ::
        (e.id.data ++ '>' :: (e.text.data ++ '<' :: "/span>".data))).length
        = e.id.data.length + e.text.data.length + 10 := by
      have h6len : ("/span>".data).length = 6 := rfl
      simp [h6len]
      omega
    obtain ⟨pv2, hsk2⟩ := scanAux_skips key _ hp2 f2 (by omega) (some 'i') s acc
    rw [hsk2, hp2len]
    rw [scanAux_mono key s.length s le_rfl
      (f2 - (e.id.data.length + e.text.data.length + 10)) s.length pv2 acc
      (by omega) le_rfl]
    rw [if_neg (by simpa using hci)]
    exact ⟨pv2, rfl⟩

/-- Scanning a rendered element list folds the per-element contribution. -/
theorem scanAux_renderChars (key : List Char) (hk : '>' ∉ key) :
    ∀ (es : List Elem), (∀ e ∈ es, GoodElem e) →
    ∀ (fuel : Nat), (renderChars es).length ≤ fuel →
    ∀ (prev : Option Char) (acc : Option (List Char)),
      scanAux key fuel prev (renderChars es) acc
        = es.foldl (fun a e => if ciStartsWith key e.id.data then some e.text.data else a)
            acc := by
  intro es
  induction es with
  | nil =>
    intro _ fuel _ prev acc
    cases fuel <;> rfl
  | cons e es ih =>
    intro hes fuel hf prev acc
    have hren : renderChars (e :: es) = elemChars e ++ renderChars es := rfl
    rw [hren] at hf ⊢
    rw [List.length_append] at hf
    obtain ⟨prev2, helem⟩ := scanAux_elem key hk e (hes e (List.mem_cons_self e es))
      (renderChars es) fuel hf prev acc
    rw [helem]
    rw [ih (fun x hx => hes x (List.mem_cons_of_mem e hx)) (renderChars es).length
      le_rfl prev2 _]
    rfl

/-- A conditional fold keeps the contribution of the last passing element. -/
theorem foldl_lastMatch {α : Type} (p : α → Bool) (f : α → List Char) :
    ∀ (es : List α) (acc : Option (List Char)),
      es.foldl (fun a e => if p e then some (f e) else a) acc
        = (match (es.filter p).getLast? with
           | some e => some (f e)
           | none => acc) := by
  intro es
  induction es with
  | nil => intro acc; rfl
  | cons e es ih =>
    intro acc
    rw [List.foldl_cons]
    by_cases hp : p e
    · rw [if_pos hp, ih, List.filter_cons_of_pos hp]
      cases hfil : es.filter p with
      | nil => rfl
      | cons x xs =>
        rw [List.getLast?_cons_cons]
        cases hl2 : (x :: xs).getLast? with
        | some y => rfl
        | none =>
          rw [List.getLast?_eq_none_iff] at hl2
          exact absurd hl2 (by simp)
    · rw [if_neg hp, ih, List.filter_cons_of_neg hp]

/-- Counterexample for C1 as stated: the markup's only element has identifier
`k9`, which is not equal to the lookup key `k`, yet extraction returns that
element's text instead of null — the scan accepts any identifier that merely
starts with the key. -/
theorem extractTextById_equality_counterexample :
    extractTextById "<span id=k9>77</span>" "k" = some "77" := by decide

/-- C1 (amended): over markup rendered from flat elements (unquoted
identifiers, scan-unambiguous characters), extractTextById returns the
trimmed text of the LAST element whose identifier attribute has the key as a
case-insensitive prefix — not necessarily equal to it — and null when no
element's identifier starts with the key. -/
theorem extractTextById_last_ciStart (key : String) (hk : '>' ∉ key.data)
    (es : List Elem) (hes : ∀ e ∈ es, GoodElem e) :
    extractTextById (render es) key =
      ((es.filter (fun e => ciStartsWith key.data e.id.data)).getLast?).map
        (fun e => String.mk (jsTrim e.text.data)) := by
  rw [extractTextById]
  have hdata : (render es).data = renderChars es := rfl
  rw [hdata]
  rw [scanAux_renderChars key.data hk es hes (renderChars es).length le_rfl none none]
  rw [foldl_lastMatch (fun e => ciStartsWith key.data e.id.data) (fun e => e.text.data) es none]
  cases (es.filter (fun e => ciStartsWith key.data e.id.data)).getLast? with
  | none => rfl
  | some e => rfl

/-- Witness for C1 at a concrete element list: two elements share the
identifier `k2`; the second one's text (trimmed) is returned. -/
theorem extractTextById_last_ciStart_witness :
    extractTextById (render [⟨"k2", "a"⟩, ⟨"k2", " b "⟩, ⟨"x9", "z"⟩]) "k2"
      = some "b" := by
  rw [extractTextById_last_ciStart "k2" (by decide)
    [⟨"k2", "a"⟩, ⟨"k2", " b "⟩, ⟨"x9", "z"⟩] (by decide)]
  decide

end Stooq
